import Mathlib

/-!
Verification of the session-scoped rate limiter (`app/rate_limit.py`) and the
HTML structural simplifier (`app/html_cleaner.py`).

Times are modelled as rationals (the source uses `time.time()` floats);
the ledger store is a function from session ids to optional `(count, first_seen)`
entries, mirroring the Python dict.
-/

/-- Embedding of `SessionCounter` from `app/rate_limit.py`: a TTL and a
dictionary from session id to `(count, first_seen)`. -/
structure SessionCounter where
  ttl : ℚ
  store : String → Option (Nat × ℚ)

namespace SessionCounter

/-- Embedding of `SessionCounter._purge_if_expired`: if an entry exists for
`sid` and `now - first_seen > ttl`, delete it; otherwise leave the state
untouched. -/
def purge_if_expired (L : SessionCounter) (sid : String) (now : ℚ) : SessionCounter :=
  match L.store sid with
  | none => L
  | some ct =>
      if now - ct.2 > L.ttl then
        { L with store := fun k => if k = sid then none else L.store k }
      else L

/-- Embedding of `SessionCounter.increment_and_get`: purge the entry if
expired, then create a fresh `(1, now)` entry when absent or increment the
count in place (preserving `first_seen`); return the stored count together
with the new state. -/
def increment_and_get (L : SessionCounter) (sid : String) (now : ℚ) :
    Nat × SessionCounter :=
  let L1 := purge_if_expired L sid now
  match L1.store sid with
  | none =>
      (1, { L1 with store := fun k => if k = sid then some (1, now) else L1.store k })
  | some ct =>
      (ct.1 + 1,
        { L1 with store := fun k => if k = sid then some (ct.1 + 1, ct.2) else L1.store k })

/-- Embedding of `SessionCounter.get`: purge the entry if expired, then read
the stored count with default `0`. Note the purge is a state mutation, so the
embedding returns the post-purge state alongside the count. -/
def get (L : SessionCounter) (sid : String) (now : ℚ) : Nat × SessionCounter :=
  let L1 := purge_if_expired L sid now
  (((L1.store sid).getD (0, 0)).1, L1)

/-- A sequence of `increment_and_get` calls for one session id at the given
times, returning the list of returned counts and the final state. -/
def run_calls (L : SessionCounter) (sid : String) : List ℚ → List Nat × SessionCounter
  | [] => ([], L)
  | t :: ts =>
      let r := increment_and_get L sid t
      let rest := run_calls r.2 sid ts
      (r.1 :: rest.1, rest.2)

/-- Embedding of the admission check in `tool_open_page` (`app/main.py`):
call `increment_and_get`, and reject (HTTP 429) exactly when the returned
count exceeds `page_tool_limit`. The boolean is `true` when the call is
admitted. -/
def open_page_call (L : SessionCounter) (sid : String) (now : ℚ) (limit : Nat) :
    Bool × Nat × SessionCounter :=
  let r := increment_and_get L sid now
  (decide (r.1 ≤ limit), r.1, r.2)

/-- A sequence of `tool_open_page` admission checks for one session id,
returning for each call whether it was admitted and the count it observed. -/
def run_open_page (L : SessionCounter) (sid : String) (limit : Nat) :
    List ℚ → List (Bool × Nat) × SessionCounter
  | [] => ([], L)
  | t :: ts =>
      let r := open_page_call L sid t limit
      let rest := run_open_page r.2.2 sid limit ts
      ((r.1, r.2.1) :: rest.1, rest.2)

/-- The action of one `increment_and_get` call on the entry of the session it
touches, as a pure function of the TTL, the old entry and the call time:
returned count together with the new stored entry. -/
def step_entry (ttl : ℚ) (e : Option (Nat × ℚ)) (now : ℚ) : Nat × (Nat × ℚ) :=
  match e with
  | none => (1, (1, now))
  | some ct => if now - ct.2 > ttl then (1, (1, now)) else (ct.1 + 1, (ct.1 + 1, ct.2))

theorem purge_store_ne (L : SessionCounter) (sid k : String) (now : ℚ) (hk : k ≠ sid) :
    (purge_if_expired L sid now).store k = L.store k := by
  unfold purge_if_expired
  cases h : L.store sid with
  | none => rfl
  | some ct =>
      dsimp only
      split
      · simp [hk]
      · rfl

theorem purge_ttl (L : SessionCounter) (sid : String) (now : ℚ) :
    (purge_if_expired L sid now).ttl = L.ttl := by
  unfold purge_if_expired
  cases h : L.store sid with
  | none => rfl
  | some ct =>
      dsimp only
      split <;> rfl

/-- Characterisation of a single `increment_and_get` call: the returned count
and the new entry for the touched session are given by `step_entry`, the TTL is
unchanged, and every other session's entry is untouched. -/
theorem increment_and_get_spec (L : SessionCounter) (sid : String) (now : ℚ) :
    (increment_and_get L sid now).1 = (step_entry L.ttl (L.store sid) now).1 ∧
    (increment_and_get L sid now).2.store sid =
      some (step_entry L.ttl (L.store sid) now).2 ∧
    (increment_and_get L sid now).2.ttl = L.ttl ∧
    ∀ k, k ≠ sid → (increment_and_get L sid now).2.store k = L.store k := by
  cases h : L.store sid with
  | none =>
      have hp : purge_if_expired L sid now = L := by
        unfold purge_if_expired; rw [h]
      simp [increment_and_get, hp, h, step_entry]
      intro k hk hk2
      exact absurd hk2 hk
  | some ct =>
      by_cases hexp : now - ct.2 > L.ttl
      · have hp : purge_if_expired L sid now =
            { L with store := fun k => if k = sid then none else L.store k } := by
          unfold purge_if_expired; rw [h]; simp [hexp]
        simp [increment_and_get, hp, h, step_entry, hexp]
        intro k hk
        simp [hk]
      · have hp : purge_if_expired L sid now = L := by
          unfold purge_if_expired; rw [h]; simp [hexp]
        simp [increment_and_get, hp, h, step_entry, hexp]
        intro k hk hk2
        exact absurd hk2 hk

/-- In-window runs from an existing entry: if every call time is within the
TTL of the stored `first_seen`, the counts continue `c+1, c+2, …` and the
entry keeps its `first_seen`. -/
theorem run_from_entry (sid : String) (ts : List ℚ) :
    ∀ (L : SessionCounter) (c : Nat) (t0 : ℚ), L.store sid = some (c, t0) →
      (∀ t ∈ ts, t - t0 ≤ L.ttl) →
      (run_calls L sid ts).1 = List.range' (c + 1) ts.length ∧
      (run_calls L sid ts).2.store sid = some (c + ts.length, t0) ∧
      (run_calls L sid ts).2.ttl = L.ttl := by
  induction ts with
  | nil =>
      intro L c t0 hentry hw
      exact ⟨rfl, by simpa using hentry, rfl⟩
  | cons t ts ih =>
      intro L c t0 hentry hw
      have hspec := increment_and_get_spec L sid t
      have hstep : step_entry L.ttl (L.store sid) t = (c + 1, (c + 1, t0)) := by
        rw [hentry]
        unfold step_entry
        have : ¬ t - t0 > L.ttl := not_lt.mpr (hw t (by simp))
        simp [this]
      set M := (increment_and_get L sid t).2 with hM
      have hMentry : M.store sid = some (c + 1, t0) := by
        rw [hspec.2.1, hstep]
      have hMttl : M.ttl = L.ttl := hspec.2.2.1
      have hw' : ∀ u ∈ ts, u - t0 ≤ M.ttl := by
        intro u hu; rw [hMttl]; exact hw u (by simp [hu])
      have hrest := ih M (c + 1) t0 hMentry hw'
      have hcount : (increment_and_get L sid t).1 = c + 1 := by
        rw [hspec.1, hstep]
      refine ⟨?_, ?_, ?_⟩
      · show (increment_and_get L sid t).1 :: (run_calls M sid ts).1 = _
        rw [hcount, hrest.1]
        simp [List.range'_succ]
      · show (run_calls M sid ts).2.store sid = _
        rw [hrest.2.1]
        have hlen : c + 1 + ts.length = c + (t :: ts).length := by simp; omega
        rw [hlen]
      · show (run_calls M sid ts).2.ttl = _
        rw [hrest.2.2, hMttl]

/-- Fresh-session runs: starting with no entry, the first call at `t0` creates
the entry `(1, t0)` and the remaining in-window calls count up from `2`. -/
theorem run_fresh (L : SessionCounter) (sid : String) (t0 : ℚ) (rest : List ℚ)
    (hfresh : L.store sid = none) (hw : ∀ t ∈ rest, t - t0 ≤ L.ttl) :
    (run_calls L sid (t0 :: rest)).1 = List.range' 1 (rest.length + 1) ∧
    (run_calls L sid (t0 :: rest)).2.store sid = some (rest.length + 1, t0) ∧
    (run_calls L sid (t0 :: rest)).2.ttl = L.ttl := by
  have hspec := increment_and_get_spec L sid t0
  have hstep : step_entry L.ttl (L.store sid) t0 = (1, (1, t0)) := by
    rw [hfresh]; rfl
  set M := (increment_and_get L sid t0).2 with hM
  have hMentry : M.store sid = some (1, t0) := by rw [hspec.2.1, hstep]
  have hMttl : M.ttl = L.ttl := hspec.2.2.1
  have hw' : ∀ u ∈ rest, u - t0 ≤ M.ttl := by
    intro u hu; rw [hMttl]; exact hw u hu
  have hrest := run_from_entry sid rest M 1 t0 hMentry hw'
  have hcount : (increment_and_get L sid t0).1 = 1 := by rw [hspec.1, hstep]
  refine ⟨?_, ?_, ?_⟩
  · show (increment_and_get L sid t0).1 :: (run_calls M sid rest).1 = _
    rw [hcount, hrest.1]
    simp [List.range'_succ]
  · show (run_calls M sid rest).2.store sid = _
    rw [hrest.2.1]
    have hlen : 1 + rest.length = rest.length + 1 := Nat.add_comm 1 _
    rw [hlen]
  · show (run_calls M sid rest).2.ttl = _
    rw [hrest.2.2, hMttl]

/-- Evaluation of `get` on an expired entry: the returned count is `0` and the
entry is evicted from the store. -/
theorem get_eval_expired (L : SessionCounter) (sid : String) (now : ℚ) (c : Nat)
    (ts : ℚ) (h : L.store sid = some (c, ts)) (hgt : now - ts > L.ttl) :
    SessionCounter.get L sid now =
      (0, { L with store := fun k => if k = sid then none else L.store k }) := by
  have hp : purge_if_expired L sid now =
      { L with store := fun k => if k = sid then none else L.store k } := by
    unfold purge_if_expired; rw [h]; simp [hgt]
  simp [SessionCounter.get, hp]

/-- The admission run returns exactly the counts of the underlying
`increment_and_get` run, each paired with the comparison against the limit. -/
theorem run_open_page_eq (sid : String) (limit : Nat) (ts : List ℚ) :
    ∀ L : SessionCounter,
      (run_open_page L sid limit ts).1 =
        (run_calls L sid ts).1.map (fun c => (decide (c ≤ limit), c)) ∧
      (run_open_page L sid limit ts).2 = (run_calls L sid ts).2 := by
  induction ts with
  | nil => intro L; exact ⟨rfl, rfl⟩
  | cons t ts ih =>
      intro L
      have h := ih (increment_and_get L sid t).2
      exact ⟨by simp [run_open_page, run_calls, open_page_call, h.1],
             by simp [run_open_page, run_calls, open_page_call, h.2]⟩

/-- Counts returned for a session depend only on the TTL and that session's
entry: two ledgers agreeing there produce identical count sequences. -/
theorem run_calls_agree (sid : String) (ts : List ℚ) :
    ∀ L M : SessionCounter, L.ttl = M.ttl → L.store sid = M.store sid →
      (run_calls L sid ts).1 = (run_calls M sid ts).1 ∧
      (run_calls L sid ts).2.store sid = (run_calls M sid ts).2.store sid ∧
      (run_calls L sid ts).2.ttl = (run_calls M sid ts).2.ttl := by
  induction ts with
  | nil => intro L M h1 h2; exact ⟨rfl, h2, h1⟩
  | cons t ts ih =>
      intro L M h1 h2
      have hL := increment_and_get_spec L sid t
      have hM := increment_and_get_spec M sid t
      have hc : (increment_and_get L sid t).1 = (increment_and_get M sid t).1 := by
        rw [hL.1, hM.1, h1, h2]
      have hs : (increment_and_get L sid t).2.store sid =
          (increment_and_get M sid t).2.store sid := by
        rw [hL.2.1, hM.2.1, h1, h2]
      have ht : (increment_and_get L sid t).2.ttl = (increment_and_get M sid t).2.ttl := by
        rw [hL.2.2.1, hM.2.2.1, h1]
      have hrest := ih _ _ ht hs
      exact ⟨by simp [run_calls, hc, hrest.1],
             by simp [run_calls, hrest.2.1],
             by simp [run_calls, hrest.2.2]⟩

end SessionCounter

open SessionCounter

/-- C1: starting from a state with no entry for the session, a sequence of
calls all issued within less than `ttl_seconds` of the first returns the
counts `1, 2, …, n` in call order, and the entry keeps `first_seen = t0`
throughout (witnessed by the final state). -/
theorem session_window_counts (L : SessionCounter) (sid : String) (t0 : ℚ)
    (rest : List ℚ) (hfresh : L.store sid = none)
    (hw : ∀ t ∈ rest, t - t0 < L.ttl) :
    (run_calls L sid (t0 :: rest)).1 = List.range' 1 (t0 :: rest).length ∧
    (run_calls L sid (t0 :: rest)).2.store sid = some ((t0 :: rest).length, t0) := by
  have hw2 : ∀ t ∈ rest, t - t0 ≤ L.ttl := fun t ht => le_of_lt (hw t ht)
  have h := run_fresh L sid t0 rest hfresh hw2
  exact ⟨by simpa using h.1, by simpa using h.2.1⟩

theorem session_window_counts_witness :
    (run_calls ⟨10, fun _ => none⟩ "s1" [0, 1, 2]).1 = [1, 2, 3] ∧
    (run_calls ⟨10, fun _ => none⟩ "s1" [0, 1, 2]).2.store "s1" = some (3, 0) := by
  have h := session_window_counts ⟨10, fun _ => none⟩ "s1" 0 [1, 2] rfl
    (by intro t ht; simp at ht; rcases ht with rfl | rfl <;> norm_num)
  exact ⟨by rw [h.1]; decide, h.2⟩

/-- C4: for an existing entry, a call strictly after `first_seen + ttl`
replaces the entry wholesale with `(1, now)` and returns `1` regardless of the
stored count; a call at age at most `ttl` increments instead, preserving
`first_seen`. -/
theorem expiry_reset (L : SessionCounter) (sid : String) (c : Nat) (ts now : ℚ)
    (hentry : L.store sid = some (c, ts)) :
    (now - ts > L.ttl →
      (increment_and_get L sid now).1 = 1 ∧
      (increment_and_get L sid now).2.store sid = some (1, now)) ∧
    (now - ts ≤ L.ttl →
      (increment_and_get L sid now).1 = c + 1 ∧
      (increment_and_get L sid now).2.store sid = some (c + 1, ts)) := by
  have h := increment_and_get_spec L sid now
  constructor
  · intro hexp
    have hs : step_entry L.ttl (L.store sid) now = (1, (1, now)) := by
      rw [hentry]; unfold step_entry; simp [hexp]
    exact ⟨by rw [h.1, hs], by rw [h.2.1, hs]⟩
  · intro hle
    have hlt : ¬ now - ts > L.ttl := not_lt.mpr hle
    have hs : step_entry L.ttl (L.store sid) now = (c + 1, (c + 1, ts)) := by
      rw [hentry]; unfold step_entry; simp [hlt]
    exact ⟨by rw [h.1, hs], by rw [h.2.1, hs]⟩

theorem expiry_reset_witness :
    (increment_and_get ⟨10, fun k => if k = "s1" then some (5, 0) else none⟩ "s1" 11).1 = 1 ∧
    (increment_and_get ⟨10, fun k => if k = "s1" then some (5, 0) else none⟩
        "s1" 11).2.store "s1" = some (1, 11) ∧
    (increment_and_get ⟨10, fun k => if k = "s1" then some (5, 0) else none⟩ "s1" 10).1 = 6 ∧
    (increment_and_get ⟨10, fun k => if k = "s1" then some (5, 0) else none⟩
        "s1" 10).2.store "s1" = some (6, 0) := by
  have h1 := (expiry_reset ⟨10, fun k => if k = "s1" then some (5, 0) else none⟩
    "s1" 5 0 11 (by simp)).1 (by norm_num)
  have h2 := (expiry_reset ⟨10, fun k => if k = "s1" then some (5, 0) else none⟩
    "s1" 5 0 10 (by simp)).2 (by norm_num)
  exact ⟨h1.1, h1.2, h2.1, h2.2⟩

/-- C3: from a fresh session, in-window `tool_open_page` calls observe counts
`1, 2, …` and are admitted exactly while the count is at most
`page_tool_limit`; moreover a single admission check rejects exactly when the
returned count exceeds the limit. -/
theorem open_page_admission (L : SessionCounter) (sid : String) (t0 : ℚ)
    (rest : List ℚ) (limit : Nat) (hfresh : L.store sid = none)
    (hw : ∀ t ∈ rest, t - t0 < L.ttl) :
    (run_open_page L sid limit (t0 :: rest)).1 =
      (List.range' 1 (t0 :: rest).length).map (fun i => (decide (i ≤ limit), i)) ∧
    ∀ (M : SessionCounter) (t : ℚ),
      ((open_page_call M sid t limit).1 = false ↔
        limit < (open_page_call M sid t limit).2.1) := by
  constructor
  · have hw2 : ∀ t ∈ rest, t - t0 ≤ L.ttl := fun t ht => le_of_lt (hw t ht)
    have h1 := run_fresh L sid t0 rest hfresh hw2
    have h2 := run_open_page_eq sid limit (t0 :: rest) L
    rw [h2.1, h1.1]
    simp
  · intro M t
    simp [open_page_call]

theorem open_page_admission_witness :
    (run_open_page ⟨3600, fun _ => none⟩ "s1" 20
        [0, 1, 2, 3, 4, 5, 6, 7, 8, 9, 10, 11, 12, 13, 14, 15, 16, 17, 18, 19, 20]).1 =
      [(true, 1), (true, 2), (true, 3), (true, 4), (true, 5), (true, 6), (true, 7),
       (true, 8), (true, 9), (true, 10), (true, 11), (true, 12), (true, 13),
       (true, 14), (true, 15), (true, 16), (true, 17), (true, 18), (true, 19),
       (true, 20), (false, 21)] := by
  have h := (open_page_admission ⟨3600, fun _ => none⟩ "s1" 0
    [1, 2, 3, 4, 5, 6, 7, 8, 9, 10, 11, 12, 13, 14, 15, 16, 17, 18, 19, 20] 20 rfl
    (by intro t ht; fin_cases ht <;> norm_num)).1
  rw [h]
  decide

/-- C6 (counterexample): the read-only claim fails — `get` on an expired entry
evicts it, so the ledger state is mutated: here the stored entry for `s1`
changes from `some (5, 0)` to `none`. -/
theorem get_mutates_counterexample :
    (SessionCounter.get ⟨10, fun k => if k = "s1" then some (5, 0) else none⟩
        "s1" 11).2.store "s1" ≠
      (⟨10, fun k => if k = "s1" then some (5, 0) else none⟩ :
        SessionCounter).store "s1" := by
  have h := get_eval_expired ⟨10, fun k => if k = "s1" then some (5, 0) else none⟩
    "s1" 11 5 0 (by simp) (by norm_num)
  rw [h]
  simp

/-- C6 (amended): `get` returns `0` for absent or expired entries and the
stored count otherwise; it leaves the state untouched when the entry is absent
or unexpired, but evicts the entry it checks when that entry is expired. -/
theorem get_spec_amended (L : SessionCounter) (sid : String) (now : ℚ) :
    (L.store sid = none → SessionCounter.get L sid now = (0, L)) ∧
    (∀ c ts, L.store sid = some (c, ts) → now - ts ≤ L.ttl →
      SessionCounter.get L sid now = (c, L)) ∧
    (∀ c ts, L.store sid = some (c, ts) → now - ts > L.ttl →
      SessionCounter.get L sid now =
        (0, { L with store := fun k => if k = sid then none else L.store k })) := by
  refine ⟨?_, ?_, ?_⟩
  · intro h
    have hp : purge_if_expired L sid now = L := by unfold purge_if_expired; rw [h]
    simp [SessionCounter.get, hp, h]
  · intro c ts h hle
    have hp : purge_if_expired L sid now = L := by
      unfold purge_if_expired; rw [h]; simp [not_lt.mpr hle]
    simp [SessionCounter.get, hp, h]
  · intro c ts h hgt
    have hp : purge_if_expired L sid now =
        { L with store := fun k => if k = sid then none else L.store k } := by
      unfold purge_if_expired; rw [h]; simp [hgt]
    simp [SessionCounter.get, hp]

theorem get_spec_amended_witness :
    SessionCounter.get ⟨10, fun k => if k = "s1" then some (7, 0) else none⟩ "s1" 3 =
      (7, ⟨10, fun k => if k = "s1" then some (7, 0) else none⟩) :=
  (get_spec_amended ⟨10, fun k => if k = "s1" then some (7, 0) else none⟩ "s1" 3).2.1
    7 0 (by simp) (by norm_num)

/-- C7: calls with one session id never influence another: after an
`increment_and_get` or `get` for `s1`, the entry of a distinct `s2` is
unchanged, and every future count sequence for `s2` is exactly what it would
have been without the `s1` call. -/
theorem session_isolation (L : SessionCounter) (s1 s2 : String) (t : ℚ)
    (hne : s1 ≠ s2) :
    (increment_and_get L s1 t).2.store s2 = L.store s2 ∧
    (SessionCounter.get L s1 t).2.store s2 = L.store s2 ∧
    (∀ ts : List ℚ,
      (run_calls (increment_and_get L s1 t).2 s2 ts).1 = (run_calls L s2 ts).1) ∧
    (∀ ts : List ℚ,
      (run_calls (SessionCounter.get L s1 t).2 s2 ts).1 = (run_calls L s2 ts).1) := by
  have hinc := increment_and_get_spec L s1 t
  have h1 : (increment_and_get L s1 t).2.store s2 = L.store s2 :=
    hinc.2.2.2 s2 (Ne.symm hne)
  have h2 : (SessionCounter.get L s1 t).2.store s2 = L.store s2 :=
    purge_store_ne L s1 s2 t (Ne.symm hne)
  refine ⟨h1, h2, ?_, ?_⟩
  · intro ts
    exact (run_calls_agree s2 ts (increment_and_get L s1 t).2 L hinc.2.2.1 h1).1
  · intro ts
    exact (run_calls_agree s2 ts (SessionCounter.get L s1 t).2 L (purge_ttl L s1 t) h2).1

theorem session_isolation_witness :
    (run_calls
        (increment_and_get ⟨10, fun k => if k = "s2" then some (4, 0) else none⟩
          "s1" 1).2 "s2" [2]).1 =
      (run_calls ⟨10, fun k => if k = "s2" then some (4, 0) else none⟩ "s2" [2]).1 ∧
    (increment_and_get ⟨10, fun k => if k = "s2" then some (4, 0) else none⟩
        "s1" 1).2.store "s2" =
      (⟨10, fun k => if k = "s2" then some (4, 0) else none⟩ :
        SessionCounter).store "s2" := by
  have h := session_isolation ⟨10, fun k => if k = "s2" then some (4, 0) else none⟩
    "s1" "s2" 1 (by decide)
  exact ⟨h.2.2.1 [2], h.1⟩

/-- C10: the ledger operations are total for the empty-string session id and
behave exactly as for any other key: from a fresh state, in-window calls
return `1, 2, …, n`, the entry is created and incremented as usual, and `get`
reads back the current count. -/
theorem empty_session_id_total (L : SessionCounter) (t0 : ℚ) (rest : List ℚ)
    (hfresh : L.store "" = none) (hw : ∀ t ∈ rest, t - t0 < L.ttl) :
    (run_calls L "" (t0 :: rest)).1 = List.range' 1 (t0 :: rest).length ∧
    (run_calls L "" (t0 :: rest)).2.store "" = some ((t0 :: rest).length, t0) ∧
    ∀ u, u - t0 ≤ L.ttl →
      (SessionCounter.get (run_calls L "" (t0 :: rest)).2 "" u).1 =
        (t0 :: rest).length := by
  have hw2 : ∀ t ∈ rest, t - t0 ≤ L.ttl := fun t ht => le_of_lt (hw t ht)
  have h := run_fresh L "" t0 rest hfresh hw2
  refine ⟨by simpa using h.1, by simpa using h.2.1, ?_⟩
  intro u hu
  have hM : (run_calls L "" (t0 :: rest)).2.store "" = some (rest.length + 1, t0) :=
    h.2.1
  have hMttl : (run_calls L "" (t0 :: rest)).2.ttl = L.ttl := h.2.2
  have hp : purge_if_expired (run_calls L "" (t0 :: rest)).2 "" u =
      (run_calls L "" (t0 :: rest)).2 := by
    unfold purge_if_expired
    rw [hM]
    have : ¬ u - t0 > (run_calls L "" (t0 :: rest)).2.ttl := by
      rw [hMttl]; exact not_lt.mpr hu
    simp [this]
  simp [SessionCounter.get, hp, hM]

theorem empty_session_id_total_witness :
    (run_calls ⟨10, fun _ => none⟩ "" [0, 1]).1 = [1, 2] ∧
    (run_calls ⟨10, fun _ => none⟩ "" [0, 1]).2.store "" = some (2, 0) ∧
    (SessionCounter.get (run_calls ⟨10, fun _ => none⟩ "" [0, 1]).2 "" 5).1 = 2 := by
  have h := empty_session_id_total ⟨10, fun _ => none⟩ 0 [1] rfl
    (by intro t ht; simp at ht; rw [ht]; norm_num)
  exact ⟨by rw [h.1]; decide, h.2.1, by have := h.2.2 5 (by norm_num); simpa using this⟩

/-!
HTML simplifier (`app/html_cleaner.py`). The simplifier consumes a tree
produced by an external parser; the tree is modelled directly. A bs4
`NavigableString` is a text node or a comment node; elements carry a tag, an
attribute list and children. Following modern bs4, `get_text` skips comment
nodes; Python whitespace is the full `str.isspace` class, as used by
`str.strip()`.
-/

/-- A parsed DOM node as consumed by `simplify_html`. -/
inductive Node : Type where
  | text (s : String)
  | comment (s : String)
  | elem (tag : String) (attrs : List (String × String)) (children : List Node)

/-- The three characters removed by `concat_text` in `simplify_html`:
newline, tab and space. -/
def isWs3 (c : Char) : Bool := c == '\n' || c == '\t' || c == ' '

/-- A character stripped by Python's `str.strip()`: the `str.isspace` class,
i.e. ASCII whitespace, the separator controls U+001C–U+001F, next line, no
break space, and the Unicode space, line and paragraph separators. -/
def isPyWs (c : Char) : Bool :=
  [' ', '\t', '\n', '\r', '\x0b', '\x0c', '\x1c', '\x1d', '\x1e', '\x1f',
   '\x85', '\xa0', '\u1680', '\u2000', '\u2001', '\u2002', '\u2003', '\u2004',
   '\u2005', '\u2006', '\u2007', '\u2008', '\u2009', '\u200a', '\u2028',
   '\u2029', '\u202f', '\u205f', '\u3000'].contains c

mutual
/-- Embedding of bs4 `get_text()`: the concatenation of all text-node strings
in document order, as a character list. Comment nodes are skipped; text inside
`script`/`style` elements is included (bs4 does not special-case it). -/
def getText : Node → List Char
  | .text s => s.data
  | .comment _ => []
  | .elem _ _ cs => getTextL cs

def getTextL : List Node → List Char
  | [] => []
  | n :: ns => getText n ++ getTextL ns
end

mutual
/-- Visible text in the sense of the specification: text-node characters
outside `script` and `style` elements and outside comments, in document
order. -/
def visText : Node → List Char
  | .text s => s.data
  | .comment _ => []
  | .elem t _ cs => if t == "script" || t == "style" then [] else visTextL cs

def visTextL : List Node → List Char
  | [] => []
  | n :: ns => visText n ++ visTextL ns
end

/-- Embedding of `concat_text` in `simplify_html`: remove every newline, tab
and space character. -/
def concat_text (s : List Char) : List Char := s.filter (fun c => !isWs3 c)

/-- Truth value of `not tag.get_text(strip=True)` in the source: every
character of the node's `get_text` strips away, i.e. is Python whitespace. -/
def strip_empty (n : Node) : Bool := (getText n).all isPyWs

/-- Whether a node is an element (not a bs4 `NavigableString`). -/
def isElem : Node → Bool
  | .elem _ _ _ => true
  | _ => false

/-- The non-`NavigableString` contents of a node list: its element members,
as selected by `simplify_html` when counting children. -/
def elem_children (ns : List Node) : List Node := ns.filter isElem

mutual
/-- Pass 1 of `simplify_html`: decompose every `script` and `style` element
together with its subtree. -/
def strip_scripts : Node → Option Node
  | .text s => some (.text s)
  | .comment s => some (.comment s)
  | .elem t a cs =>
      if t == "script" || t == "style" then none
      else some (.elem t a (strip_scriptsL cs))

def strip_scriptsL : List Node → List Node
  | [] => []
  | n :: ns =>
      match strip_scripts n with
      | none => strip_scriptsL ns
      | some m => m :: strip_scriptsL ns
end

mutual
/-- Pass 2 of `simplify_html` (default mode only): clear every element's
attribute mapping. -/
def clear_attrs : Node → Node
  | .text s => .text s
  | .comment s => .comment s
  | .elem t _ cs => .elem t [] (clear_attrsL cs)

def clear_attrsL : List Node → List Node
  | [] => []
  | n :: ns => clear_attrs n :: clear_attrsL ns
end

mutual
/-- Pass 3 of `simplify_html`: remove every element whose
`get_text(strip=True)` is empty. The source rescans until a pass removes
nothing; a removed subtree's text is all whitespace, so removals never change
any other element's strip-emptiness and the loop's fixpoint equals this single
sweep in which each element is tested on its original subtree
(`remove_empty_fixpoint` below proves the fixpoint property). -/
def remove_empty : Node → Option Node
  | .text s => some (.text s)
  | .comment s => some (.comment s)
  | .elem t a cs =>
      if strip_empty (.elem t a cs) then none
      else some (.elem t a (remove_emptyL cs))

def remove_emptyL : List Node → List Node
  | [] => []
  | n :: ns =>
      match remove_empty n with
      | none => remove_emptyL ns
      | some m => m :: remove_emptyL ns
end

mutual
/-- Pass 4 of `simplify_html`: delete the `href` attribute of every anchor
element. -/
def strip_href : Node → Node
  | .text s => .text s
  | .comment s => .comment s
  | .elem t a cs =>
      .elem t (if t == "a" then a.filter (fun p => !(p.1 == "href")) else a)
        (strip_hrefL cs)

def strip_hrefL : List Node → List Node
  | [] => []
  | n :: ns => strip_href n :: strip_hrefL ns
end

mutual
/-- Pass 5 of `simplify_html`: extract every comment node. -/
def remove_comments : Node → Option Node
  | .text s => some (.text s)
  | .comment _ => none
  | .elem t a cs => some (.elem t a (remove_commentsL cs))

def remove_commentsL : List Node → List Node
  | [] => []
  | n :: ns =>
      match remove_comments n with
      | none => remove_commentsL ns
      | some m => m :: remove_commentsL ns
end

/-- The unwrap condition of pass 6: exactly one element child, and the
element's `get_text` equals its element children's joined `get_text` after
`concat_text` normalisation. -/
def unwrap_test (t : String) (a : List (String × String)) (cs : List Node) : Bool :=
  (elem_children cs).length == 1 &&
    concat_text (getTextL (elem_children cs)) == concat_text (getText (.elem t a cs))

mutual
/-- Pass 6 of `simplify_html`: unwrap text-transparent wrappers. The source
iterates a document-order snapshot, so every element is processed before its
descendants, and unwrapping changes no element's `get_text` nor its number of
element children; hence each element's test is evaluated on its original
subtree, which this recursion reproduces. -/
def unwrap : Node → List Node
  | .text s => [.text s]
  | .comment s => [.comment s]
  | .elem t a cs =>
      if unwrap_test t a cs then unwrapL cs else [.elem t a (unwrapL cs)]

def unwrapL : List Node → List Node
  | [] => []
  | n :: ns => unwrap n ++ unwrapL ns
end

/-- The ordered tree-rewriting passes of `simplify_html` (passes 1–6); the
final serialisation and blank-line filtering is `simplify_html_str` below. -/
def simplify_passes (keep_attr : Bool) (ns : List Node) : List Node :=
  let n1 := strip_scriptsL ns
  let n2 := if keep_attr then n1 else clear_attrsL n1
  let n3 := remove_emptyL n2
  let n4 := strip_hrefL n3
  let n5 := remove_commentsL n4
  unwrapL n5

/-- Attribute serialisation for `str(soup)`. -/
def render_attrs (a : List (String × String)) : String :=
  (a.map (fun p => " " ++ p.1 ++ "=\"" ++ p.2 ++ "\"")).foldl (· ++ ·) ""

mutual
/-- Serialisation of a node back to markup, modelling `str(soup)`. -/
def render : Node → String
  | .text s => s
  | .comment s => "<!--" ++ s ++ "-->"
  | .elem t a cs => "<" ++ t ++ render_attrs a ++ ">" ++ renderL cs ++ "</" ++ t ++ ">"

def renderL : List Node → String
  | [] => ""
  | n :: ns => render n ++ renderL ns
end

/-- Split a character list into lines at newline characters. -/
def split_lines : List Char → List (List Char)
  | [] => [[]]
  | c :: cs =>
      if c = '\n' then [] :: split_lines cs
      else
        match split_lines cs with
        | [] => [[c]]
        | l :: ls => (c :: l) :: ls

/-- Final step of `simplify_html`: drop every serialised line that is empty
after stripping, and re-join with newlines. -/
def drop_empty_lines (s : String) : String :=
  ⟨List.intercalate ['\n']
    ((split_lines s.data).filter (fun l => l.any (fun c => !isPyWs c)))⟩

/-- Full embedding of `simplify_html`: the tree passes followed by
serialisation and blank-line removal. -/
def simplify_html_str (keep_attr : Bool) (ns : List Node) : String :=
  drop_empty_lines (renderL (simplify_passes keep_attr ns))

/-- Mutual structural induction for `Node` and `List Node`. -/
theorem node_mutual_ind (P : Node → Prop) (Q : List Node → Prop)
    (ht : ∀ s, P (.text s)) (hc : ∀ s, P (.comment s))
    (he : ∀ t a cs, Q cs → P (.elem t a cs))
    (hnil : Q []) (hcons : ∀ n ns, P n → Q ns → Q (n :: ns)) :
    (∀ n, P n) ∧ (∀ ns, Q ns) := by
  have hp : ∀ n, P n := fun n => Node.rec ht hc he hnil hcons n
  refine ⟨hp, ?_⟩
  intro ns
  induction ns with
  | nil => exact hnil
  | cons n ns ih => exact hcons n ns (hp n) ih

/-- Text of an optional node (a decomposed node contributes nothing). -/
def getTextO : Option Node → List Char
  | none => []
  | some m => getText m

/-- Visible text of an optional node. -/
def visTextO : Option Node → List Char
  | none => []
  | some m => visText m

/-- The non-whitespace characters of a character list (Python whitespace). -/
def nonws (s : List Char) : List Char := s.filter (fun c => !isPyWs c)

theorem getTextL_append (xs ys : List Node) :
    getTextL (xs ++ ys) = getTextL xs ++ getTextL ys := by
  induction xs with
  | nil => rfl
  | cons n ns ih => simp [getTextL, ih]

theorem visTextL_append (xs ys : List Node) :
    visTextL (xs ++ ys) = visTextL xs ++ visTextL ys := by
  induction xs with
  | nil => rfl
  | cons n ns ih => simp [visTextL, ih]

theorem nonws_append (xs ys : List Char) :
    nonws (xs ++ ys) = nonws xs ++ nonws ys := by
  simp [nonws]

/-- Pass 1 preserves visible text exactly: a removed `script`/`style` element
contributed no visible text. -/
theorem strip_scripts_visText :
    (∀ n, visTextO (strip_scripts n) = visText n) ∧
    (∀ ns, visTextL (strip_scriptsL ns) = visTextL ns) := by
  refine node_mutual_ind _ _ ?_ ?_ ?_ ?_ ?_
  · intro s; rfl
  · intro s; rfl
  · intro t a cs ih
    cases h : (t == "script" || t == "style") with
    | true => simp [strip_scripts, visText, visTextO, h]
    | false => simp [strip_scripts, visText, visTextO, h, ih]
  · rfl
  · intro n ns ihn ihns
    cases hn : strip_scripts n with
    | none =>
        have : visText n = [] := by rw [← ihn, hn]; rfl
        simp [strip_scriptsL, hn, visTextL, ihns, this]
    | some m =>
        have : visText m = visText n := by rw [← ihn, hn]; rfl
        simp [strip_scriptsL, hn, visTextL, ihns, this]

/-- Pass 2 changes no text: clearing attributes preserves both `get_text` and
visible text. -/
theorem clear_attrs_text :
    (∀ n, getText (clear_attrs n) = getText n ∧ visText (clear_attrs n) = visText n) ∧
    (∀ ns, getTextL (clear_attrsL ns) = getTextL ns ∧
      visTextL (clear_attrsL ns) = visTextL ns) := by
  refine node_mutual_ind _ _ ?_ ?_ ?_ ?_ ?_
  · intro s; exact ⟨rfl, rfl⟩
  · intro s; exact ⟨rfl, rfl⟩
  · intro t a cs ih
    refine ⟨by simp [clear_attrs, getText, ih.1], ?_⟩
    cases h : (t == "script" || t == "style") with
    | true => simp [clear_attrs, visText, h]
    | false => simp [clear_attrs, visText, h, ih.2]
  · exact ⟨rfl, rfl⟩
  · intro n ns ihn ihns
    exact ⟨by simp [clear_attrsL, getTextL, ihn.1, ihns.1],
           by simp [clear_attrsL, visTextL, ihn.2, ihns.2]⟩

/-- Pass 4 changes no text: deleting `href` attributes preserves both
`get_text` and visible text. -/
theorem strip_href_text :
    (∀ n, getText (strip_href n) = getText n ∧ visText (strip_href n) = visText n) ∧
    (∀ ns, getTextL (strip_hrefL ns) = getTextL ns ∧
      visTextL (strip_hrefL ns) = visTextL ns) := by
  refine node_mutual_ind _ _ ?_ ?_ ?_ ?_ ?_
  · intro s; exact ⟨rfl, rfl⟩
  · intro s; exact ⟨rfl, rfl⟩
  · intro t a cs ih
    refine ⟨by simp [strip_href, getText, ih.1], ?_⟩
    cases h : (t == "script" || t == "style") with
    | true => simp [strip_href, visText, h]
    | false => simp [strip_href, visText, h, ih.2]
  · exact ⟨rfl, rfl⟩
  · intro n ns ihn ihns
    exact ⟨by simp [strip_hrefL, getTextL, ihn.1, ihns.1],
           by simp [strip_hrefL, visTextL, ihn.2, ihns.2]⟩

/-- Pass 5 preserves both text notions exactly: comments carry no text. -/
theorem remove_comments_text :
    (∀ n, getTextO (remove_comments n) = getText n ∧
      visTextO (remove_comments n) = visText n) ∧
    (∀ ns, getTextL (remove_commentsL ns) = getTextL ns ∧
      visTextL (remove_commentsL ns) = visTextL ns) := by
  refine node_mutual_ind _ _ ?_ ?_ ?_ ?_ ?_
  · intro s; exact ⟨rfl, rfl⟩
  · intro s; exact ⟨rfl, rfl⟩
  · intro t a cs ih
    refine ⟨by simp [remove_comments, getTextO, getText, ih.1], ?_⟩
    cases h : (t == "script" || t == "style") with
    | true => simp [remove_comments, visTextO, visText, h]
    | false => simp [remove_comments, visTextO, visText, h, ih.2]
  · exact ⟨rfl, rfl⟩
  · intro n ns ihn ihns
    cases hn : remove_comments n with
    | none =>
        have h1 : getText n = [] := by rw [← ihn.1, hn]; rfl
        have h2 : visText n = [] := by rw [← ihn.2, hn]; rfl
        simp [remove_commentsL, hn, getTextL, visTextL, ihns.1, ihns.2, h1, h2]
    | some m =>
        have h1 : getText m = getText n := by rw [← ihn.1, hn]; rfl
        have h2 : visText m = visText n := by rw [← ihn.2, hn]; rfl
        simp [remove_commentsL, hn, getTextL, visTextL, ihns.1, ihns.2, h1, h2]

/-- Pass 6 preserves `get_text` exactly: unwrapping splices an element's
children in place. -/
theorem unwrap_getText :
    (∀ n, getTextL (unwrap n) = getText n) ∧
    (∀ ns, getTextL (unwrapL ns) = getTextL ns) := by
  refine node_mutual_ind _ _ ?_ ?_ ?_ ?_ ?_
  · intro s; simp [unwrap, getTextL, getText]
  · intro s; simp [unwrap, getTextL, getText]
  · intro t a cs ih
    by_cases h : unwrap_test t a cs
    · simp [unwrap, h, ih, getText]
    · simp [unwrap, h, getTextL, getText, ih]
  · rfl
  · intro n ns ihn ihns
    simp [unwrapL, getTextL_append, ihn, ihns, getTextL]

mutual
/-- No `script` or `style` element occurs in the tree. -/
def script_free : Node → Bool
  | .text _ => true
  | .comment _ => true
  | .elem t _ cs => !(t == "script" || t == "style") && script_freeL cs

def script_freeL : List Node → Bool
  | [] => true
  | n :: ns => script_free n && script_freeL ns
end

mutual
/-- Every element's attribute mapping is empty. -/
def attrs_empty : Node → Bool
  | .text _ => true
  | .comment _ => true
  | .elem _ a cs => a.isEmpty && attrs_emptyL cs

def attrs_emptyL : List Node → Bool
  | [] => true
  | n :: ns => attrs_empty n && attrs_emptyL ns
end

mutual
/-- No element of the tree has empty `get_text(strip=True)`. -/
def no_empty : Node → Bool
  | .text _ => true
  | .comment _ => true
  | .elem t a cs => !strip_empty (.elem t a cs) && no_emptyL cs

def no_emptyL : List Node → Bool
  | [] => true
  | n :: ns => no_empty n && no_emptyL ns
end

mutual
/-- No anchor element carries an `href` attribute. -/
def no_href : Node → Bool
  | .text _ => true
  | .comment _ => true
  | .elem t a cs => (!(t == "a") || a.all (fun p => !(p.1 == "href"))) && no_hrefL cs

def no_hrefL : List Node → Bool
  | [] => true
  | n :: ns => no_href n && no_hrefL ns
end

mutual
/-- No comment node occurs in the tree. -/
def comment_free : Node → Bool
  | .text _ => true
  | .comment _ => false
  | .elem _ _ cs => comment_freeL cs

def comment_freeL : List Node → Bool
  | [] => true
  | n :: ns => comment_free n && comment_freeL ns
end

mutual
/-- No element of the tree satisfies the unwrap condition of pass 6. -/
def no_unwrap : Node → Bool
  | .text _ => true
  | .comment _ => true
  | .elem t a cs => !unwrap_test t a cs && no_unwrapL cs

def no_unwrapL : List Node → Bool
  | [] => true
  | n :: ns => no_unwrap n && no_unwrapL ns
end

theorem script_freeL_append (xs ys : List Node) :
    script_freeL (xs ++ ys) = (script_freeL xs && script_freeL ys) := by
  induction xs with
  | nil => simp [script_freeL]
  | cons n ns ih => simp [script_freeL, ih, Bool.and_assoc]

theorem attrs_emptyL_append (xs ys : List Node) :
    attrs_emptyL (xs ++ ys) = (attrs_emptyL xs && attrs_emptyL ys) := by
  induction xs with
  | nil => simp [attrs_emptyL]
  | cons n ns ih => simp [attrs_emptyL, ih, Bool.and_assoc]

theorem no_emptyL_append (xs ys : List Node) :
    no_emptyL (xs ++ ys) = (no_emptyL xs && no_emptyL ys) := by
  induction xs with
  | nil => simp [no_emptyL]
  | cons n ns ih => simp [no_emptyL, ih, Bool.and_assoc]

theorem no_hrefL_append (xs ys : List Node) :
    no_hrefL (xs ++ ys) = (no_hrefL xs && no_hrefL ys) := by
  induction xs with
  | nil => simp [no_hrefL]
  | cons n ns ih => simp [no_hrefL, ih, Bool.and_assoc]

theorem comment_freeL_append (xs ys : List Node) :
    comment_freeL (xs ++ ys) = (comment_freeL xs && comment_freeL ys) := by
  induction xs with
  | nil => simp [comment_freeL]
  | cons n ns ih => simp [comment_freeL, ih, Bool.and_assoc]

theorem no_unwrapL_append (xs ys : List Node) :
    no_unwrapL (xs ++ ys) = (no_unwrapL xs && no_unwrapL ys) := by
  induction xs with
  | nil => simp [no_unwrapL]
  | cons n ns ih => simp [no_unwrapL, ih, Bool.and_assoc]

/-- A character list strips to nothing exactly when it has no non-whitespace
character. -/
theorem all_pyws_iff_nonws_nil (s : List Char) :
    s.all isPyWs = true ↔ nonws s = [] := by
  simp [nonws, List.all_eq_true, List.filter_eq_nil_iff]

/-- A subtree whose `get_text` is all whitespace has all-whitespace visible
text as well (visible text drops comment and script/style characters). -/
theorem all_pyws_visText :
    (∀ n, (getText n).all isPyWs = true → (visText n).all isPyWs = true) ∧
    (∀ ns, (getTextL ns).all isPyWs = true → (visTextL ns).all isPyWs = true) := by
  refine node_mutual_ind _ _ ?_ ?_ ?_ ?_ ?_
  · intro s h; exact h
  · intro s h; rfl
  · intro t a cs ih h
    cases hs : (t == "script" || t == "style") with
    | true => simp [visText, hs]
    | false =>
        simp only [visText, hs]
        exact ih (by simpa [getText] using h)
  · intro h; rfl
  · intro n ns ihn ihns h
    simp only [getTextL, List.all_append, Bool.and_eq_true] at h
    simp [visTextL, List.all_append, ihn h.1, ihns h.2]

/-- Pass 3 deletes only whitespace characters: the non-whitespace content of
both text notions is untouched. -/
theorem remove_empty_text :
    (∀ n, nonws (getTextO (remove_empty n)) = nonws (getText n) ∧
      nonws (visTextO (remove_empty n)) = nonws (visText n)) ∧
    (∀ ns, nonws (getTextL (remove_emptyL ns)) = nonws (getTextL ns) ∧
      nonws (visTextL (remove_emptyL ns)) = nonws (visTextL ns)) := by
  refine node_mutual_ind _ _ ?_ ?_ ?_ ?_ ?_
  · intro s; exact ⟨rfl, rfl⟩
  · intro s; exact ⟨rfl, rfl⟩
  · intro t a cs ih
    by_cases h : strip_empty (.elem t a cs) = true
    · have hg : nonws (getText (.elem t a cs)) = [] :=
        (all_pyws_iff_nonws_nil _).mp h
      have hv : nonws (visText (.elem t a cs)) = [] :=
        (all_pyws_iff_nonws_nil _).mp (all_pyws_visText.1 _ h)
      have hre : remove_empty (.elem t a cs) = none := by simp [remove_empty, h]
      rw [hre]
      exact ⟨by rw [hg]; rfl, by rw [hv]; rfl⟩
    · refine ⟨by simp [remove_empty, h, getTextO, getText, ih.1], ?_⟩
      cases hs : (t == "script" || t == "style") with
      | true => simp [remove_empty, h, visTextO, visText, hs, nonws]
      | false => simp [remove_empty, h, visTextO, visText, hs, ih.2]
  · exact ⟨rfl, rfl⟩
  · intro n ns ihn ihns
    cases hn : remove_empty n with
    | none =>
        have h1 : nonws (getText n) = [] := by rw [← ihn.1, hn]; rfl
        have h2 : nonws (visText n) = [] := by rw [← ihn.2, hn]; rfl
        simp [remove_emptyL, hn, getTextL, visTextL, nonws_append, ihns.1, ihns.2,
          h1, h2]
    | some m =>
        have h1 : nonws (getText m) = nonws (getText n) := by rw [← ihn.1, hn]; rfl
        have h2 : nonws (visText m) = nonws (visText n) := by rw [← ihn.2, hn]; rfl
        simp [remove_emptyL, hn, getTextL, visTextL, nonws_append, ihns.1, ihns.2, h1, h2]

/-- On script-free trees, visible text and `get_text` coincide. -/
theorem script_free_vis_eq :
    (∀ n, script_free n = true → visText n = getText n) ∧
    (∀ ns, script_freeL ns = true → visTextL ns = getTextL ns) := by
  refine node_mutual_ind _ _ ?_ ?_ ?_ ?_ ?_
  · intro s _; rfl
  · intro s _; rfl
  · intro t a cs ih h
    simp only [script_free, Bool.and_eq_true, Bool.not_eq_true'] at h
    simp [visText, getText, h.1, ih h.2]
  · intro _; rfl
  · intro n ns ihn ihns h
    simp only [script_freeL, Bool.and_eq_true] at h
    simp [visTextL, getTextL, ihn h.1, ihns h.2]

/-- Pass 1 leaves a script-free tree. -/
theorem strip_scripts_script_free :
    (∀ n, ∀ m, strip_scripts n = some m → script_free m = true) ∧
    (∀ ns, script_freeL (strip_scriptsL ns) = true) := by
  refine node_mutual_ind _ _ ?_ ?_ ?_ ?_ ?_
  · intro s m hm
    simp only [strip_scripts, Option.some.injEq] at hm
    rw [← hm]; rfl
  · intro s m hm
    simp only [strip_scripts, Option.some.injEq] at hm
    rw [← hm]; rfl
  · intro t a cs ih m hm
    cases hs : (t == "script" || t == "style") with
    | true => simp [strip_scripts, hs] at hm
    | false =>
        simp only [strip_scripts, hs, Bool.false_eq_true, if_false,
          Option.some.injEq] at hm
        rw [← hm]
        simp [script_free, hs, ih]
  · rfl
  · intro n ns ihn ihns
    cases hn : strip_scripts n with
    | none => simpa [strip_scriptsL, hn] using ihns
    | some m => simp [strip_scriptsL, hn, script_freeL, ihn m hn, ihns]

/-- Pass 2 preserves script-freeness. -/
theorem clear_attrs_script_free :
    (∀ n, script_free n = true → script_free (clear_attrs n) = true) ∧
    (∀ ns, script_freeL ns = true → script_freeL (clear_attrsL ns) = true) := by
  refine node_mutual_ind _ _ ?_ ?_ ?_ ?_ ?_
  · intro s h; exact h
  · intro s h; exact h
  · intro t a cs ih h
    simp only [script_free, Bool.and_eq_true] at h
    simp [clear_attrs, script_free, h.1, ih h.2]
  · intro h; exact h
  · intro n ns ihn ihns h
    simp only [script_freeL, Bool.and_eq_true] at h
    simp [clear_attrsL, script_freeL, ihn h.1, ihns h.2]

/-- Pass 3 preserves script-freeness. -/
theorem remove_empty_script_free :
    (∀ n, script_free n = true → ∀ m, remove_empty n = some m → script_free m = true) ∧
    (∀ ns, script_freeL ns = true → script_freeL (remove_emptyL ns) = true) := by
  refine node_mutual_ind _ _ ?_ ?_ ?_ ?_ ?_
  · intro s h m hm
    simp only [remove_empty, Option.some.injEq] at hm
    rw [← hm]; exact h
  · intro s h m hm
    simp only [remove_empty, Option.some.injEq] at hm
    rw [← hm]; exact h
  · intro t a cs ih h m hm
    simp only [script_free, Bool.and_eq_true] at h
    by_cases he : strip_empty (.elem t a cs) = true
    · simp [remove_empty, he] at hm
    · simp only [remove_empty, he, Bool.false_eq_true, if_false,
        Option.some.injEq] at hm
      rw [← hm]
      simp [script_free, h.1, ih h.2]
  · intro _; rfl
  · intro n ns ihn ihns h
    simp only [script_freeL, Bool.and_eq_true] at h
    cases hn : remove_empty n with
    | none => simpa [remove_emptyL, hn] using ihns h.2
    | some m => simp [remove_emptyL, hn, script_freeL, ihn h.1 m hn, ihns h.2]

/-- Pass 4 preserves script-freeness. -/
theorem strip_href_script_free :
    (∀ n, script_free n = true → script_free (strip_href n) = true) ∧
    (∀ ns, script_freeL ns = true → script_freeL (strip_hrefL ns) = true) := by
  refine node_mutual_ind _ _ ?_ ?_ ?_ ?_ ?_
  · intro s h; exact h
  · intro s h; exact h
  · intro t a cs ih h
    simp only [script_free, Bool.and_eq_true] at h
    simp [strip_href, script_free, h.1, ih h.2]
  · intro h; exact h
  · intro n ns ihn ihns h
    simp only [script_freeL, Bool.and_eq_true] at h
    simp [strip_hrefL, script_freeL, ihn h.1, ihns h.2]

/-- Pass 5 preserves script-freeness. -/
theorem remove_comments_script_free :
    (∀ n, script_free n = true → ∀ m, remove_comments n = some m → script_free m = true) ∧
    (∀ ns, script_freeL ns = true → script_freeL (remove_commentsL ns) = true) := by
  refine node_mutual_ind _ _ ?_ ?_ ?_ ?_ ?_
  · intro s h m hm
    simp only [remove_comments, Option.some.injEq] at hm
    rw [← hm]; exact h
  · intro s h m hm
    simp [remove_comments] at hm
  · intro t a cs ih h m hm
    simp only [script_free, Bool.and_eq_true] at h
    simp only [remove_comments, Option.some.injEq] at hm
    rw [← hm]
    simp [script_free, h.1, ih h.2]
  · intro _; rfl
  · intro n ns ihn ihns h
    simp only [script_freeL, Bool.and_eq_true] at h
    cases hn : remove_comments n with
    | none => simpa [remove_commentsL, hn] using ihns h.2
    | some m => simp [remove_commentsL, hn, script_freeL, ihn h.1 m hn, ihns h.2]

/-- Pass 6 preserves script-freeness. -/
theorem unwrap_script_free :
    (∀ n, script_free n = true → script_freeL (unwrap n) = true) ∧
    (∀ ns, script_freeL ns = true → script_freeL (unwrapL ns) = true) := by
  refine node_mutual_ind _ _ ?_ ?_ ?_ ?_ ?_
  · intro s h; simp [unwrap, script_freeL, script_free]
  · intro s h; simp [unwrap, script_freeL, script_free]
  · intro t a cs ih h
    simp only [script_free, Bool.and_eq_true] at h
    by_cases hu : unwrap_test t a cs = true
    · simp [unwrap, hu, ih h.2]
    · simp [unwrap, hu, script_freeL, script_free, h.1, ih h.2]
  · intro h; exact h
  · intro n ns ihn ihns h
    simp only [script_freeL, Bool.and_eq_true] at h
    simp [unwrapL, script_freeL_append, ihn h.1, ihns h.2]

/-- C2 (amended): the simplifier preserves the ordered sequence of
non-whitespace visible-text characters, where whitespace is Python's
whitespace class (the one `str.strip()` uses), not merely space, tab and
newline: no non-whitespace character is added, removed or reordered. -/
theorem simplify_visible_text (k : Bool) (ns : List Node) :
    nonws (visTextL (simplify_passes k ns)) = nonws (visTextL ns) := by
  unfold simplify_passes
  set n1 := strip_scriptsL ns with hn1
  set n2 := if k then n1 else clear_attrsL n1 with hn2
  set n3 := remove_emptyL n2 with hn3
  set n4 := strip_hrefL n3 with hn4
  set n5 := remove_commentsL n4 with hn5
  have sf1 : script_freeL n1 = true := strip_scripts_script_free.2 ns
  have sf2 : script_freeL n2 = true := by
    cases k with
    | true => simpa [hn2] using sf1
    | false => simpa [hn2] using clear_attrs_script_free.2 n1 sf1
  have sf3 : script_freeL n3 = true := remove_empty_script_free.2 n2 sf2
  have sf4 : script_freeL n4 = true := strip_href_script_free.2 n3 sf3
  have sf5 : script_freeL n5 = true := remove_comments_script_free.2 n4 sf4
  have sf6 : script_freeL (unwrapL n5) = true := unwrap_script_free.2 n5 sf5
  calc nonws (visTextL (unwrapL n5))
      = nonws (getTextL (unwrapL n5)) := by rw [script_free_vis_eq.2 _ sf6]
    _ = nonws (getTextL n5) := by rw [unwrap_getText.2]
    _ = nonws (visTextL n5) := by rw [script_free_vis_eq.2 _ sf5]
    _ = nonws (visTextL n4) := by rw [(remove_comments_text.2 n4).2]
    _ = nonws (visTextL n3) := by rw [(strip_href_text.2 n3).2]
    _ = nonws (visTextL n2) := (remove_empty_text.2 n2).2
    _ = nonws (visTextL n1) := by
          cases k with
          | true => simp [hn2]
          | false => simp [hn2, (clear_attrs_text.2 n1).2]
    _ = nonws (visTextL ns) := by rw [strip_scripts_visText.2]

/-- C2 (counterexample): with the whitespace class of the claim (space, tab,
newline only), preservation fails: a text node holding a carriage return is
removed by the empty-element pass, deleting a character outside that class.
The normalisation used is the source's own `concat_text`. -/
theorem simplify_visible_text_counterexample :
    concat_text (visTextL (simplify_passes false
        [Node.elem "div" [] [Node.text "a", Node.elem "p" [] [Node.text "\r"],
          Node.text "b"]])) ≠
      concat_text (visTextL
        [Node.elem "div" [] [Node.text "a", Node.elem "p" [] [Node.text "\r"],
          Node.text "b"]]) := by
  decide

theorem concat_text_append (xs ys : List Char) :
    concat_text (xs ++ ys) = concat_text xs ++ concat_text ys := by
  simp [concat_text]

/-- Pass 2 leaves every attribute mapping empty. -/
theorem clear_attrs_attrs_empty :
    (∀ n, attrs_empty (clear_attrs n) = true) ∧
    (∀ ns, attrs_emptyL (clear_attrsL ns) = true) := by
  refine node_mutual_ind _ _ ?_ ?_ ?_ ?_ ?_
  · intro s; rfl
  · intro s; rfl
  · intro t a cs ih; simp [clear_attrs, attrs_empty, ih]
  · rfl
  · intro n ns ihn ihns; simp [clear_attrsL, attrs_emptyL, ihn, ihns]

/-- Pass 3 reaches its fixpoint in one sweep: no surviving element is
strip-empty, because a survivor's non-whitespace text is untouched by the
removals below it. This is the property the source's rescan loop terminates
on. -/
theorem remove_empty_fixpoint :
    (∀ n, ∀ m, remove_empty n = some m → no_empty m = true) ∧
    (∀ ns, no_emptyL (remove_emptyL ns) = true) := by
  refine node_mutual_ind _ _ ?_ ?_ ?_ ?_ ?_
  · intro s m hm
    simp only [remove_empty, Option.some.injEq] at hm
    rw [← hm]; rfl
  · intro s m hm
    simp only [remove_empty, Option.some.injEq] at hm
    rw [← hm]; rfl
  · intro t a cs ih m hm
    by_cases he : strip_empty (.elem t a cs) = true
    · simp [remove_empty, he] at hm
    · simp only [remove_empty, he, Bool.false_eq_true, if_false,
        Option.some.injEq] at hm
      rw [← hm]
      have hne : strip_empty (.elem t a (remove_emptyL cs)) = false := by
        apply Bool.not_eq_true _ |>.mp
        intro hc
        apply he
        have h1 : nonws (getText (.elem t a (remove_emptyL cs))) = [] :=
          (all_pyws_iff_nonws_nil _).mp hc
        have h2 : nonws (getTextL (remove_emptyL cs)) = nonws (getTextL cs) :=
          (remove_empty_text.2 cs).1
      /- the survivor's `get_text` has the same non-whitespace characters as
         the original, so strip-emptiness transfers back -/
        apply (all_pyws_iff_nonws_nil _).mpr
        show nonws (getTextL cs) = []
        rw [← h2]
        exact h1
      simp [no_empty, hne, ih]
  · rfl
  · intro n ns ihn ihns
    cases hn : remove_empty n with
    | none => simpa [remove_emptyL, hn] using ihns
    | some m => simp [remove_emptyL, hn, no_emptyL, ihn m hn, ihns]

/-- Pass 4 leaves no anchor with an `href` attribute. -/
theorem strip_href_no_href :
    (∀ n, no_href (strip_href n) = true) ∧
    (∀ ns, no_hrefL (strip_hrefL ns) = true) := by
  refine node_mutual_ind _ _ ?_ ?_ ?_ ?_ ?_
  · intro s; rfl
  · intro s; rfl
  · intro t a cs ih
    cases ha : (t == "a") with
    | false => simp [strip_href, no_href, ha, ih]
    | true =>
        simp only [strip_href, ha, if_true, no_href, Bool.and_eq_true]
        refine ⟨?_, ih⟩
        simp only [Bool.or_eq_true]
        right
        rw [List.all_eq_true]
        intro p hp
        simpa using (List.mem_filter.mp hp).2
  · rfl
  · intro n ns ihn ihns; simp [strip_hrefL, no_hrefL, ihn, ihns]

/-- Pass 5 leaves a comment-free tree. -/
theorem remove_comments_comment_free :
    (∀ n, ∀ m, remove_comments n = some m → comment_free m = true) ∧
    (∀ ns, comment_freeL (remove_commentsL ns) = true) := by
  refine node_mutual_ind _ _ ?_ ?_ ?_ ?_ ?_
  · intro s m hm
    simp only [remove_comments, Option.some.injEq] at hm
    rw [← hm]; rfl
  · intro s m hm; cases hm
  · intro t a cs ih m hm
    simp only [remove_comments, Option.some.injEq] at hm
    rw [← hm]
    simpa [comment_free] using ih
  · rfl
  · intro n ns ihn ihns
    cases hn : remove_comments n with
    | none => simpa [remove_commentsL, hn] using ihns
    | some m => simp [remove_commentsL, hn, comment_freeL, ihn m hn, ihns]

/-- Empty attribute mappings in particular carry no `href`. -/
theorem attrs_empty_no_href :
    (∀ n, attrs_empty n = true → no_href n = true) ∧
    (∀ ns, attrs_emptyL ns = true → no_hrefL ns = true) := by
  refine node_mutual_ind _ _ ?_ ?_ ?_ ?_ ?_
  · intro s _; rfl
  · intro s _; rfl
  · intro t a cs ih h
    simp only [attrs_empty, Bool.and_eq_true, List.isEmpty_iff] at h
    simp [no_href, h.1, ih h.2]
  · intro _; rfl
  · intro n ns ihn ihns h
    simp only [attrs_emptyL, Bool.and_eq_true] at h
    simp [no_hrefL, ihn h.1, ihns h.2]

/-- Pass 3 preserves empty attribute mappings. -/
theorem remove_empty_attrs_empty :
    (∀ n, attrs_empty n = true → ∀ m, remove_empty n = some m → attrs_empty m = true) ∧
    (∀ ns, attrs_emptyL ns = true → attrs_emptyL (remove_emptyL ns) = true) := by
  refine node_mutual_ind _ _ ?_ ?_ ?_ ?_ ?_
  · intro s h m hm
    simp only [remove_empty, Option.some.injEq] at hm
    rw [← hm]; exact h
  · intro s h m hm
    simp only [remove_empty, Option.some.injEq] at hm
    rw [← hm]; exact h
  · intro t a cs ih h m hm
    simp only [attrs_empty, Bool.and_eq_true] at h
    by_cases he : strip_empty (.elem t a cs) = true
    · simp [remove_empty, he] at hm
    · simp only [remove_empty, he, Bool.false_eq_true, if_false,
        Option.some.injEq] at hm
      rw [← hm]
      simp [attrs_empty, h.1, ih h.2]
  · intro _; rfl
  · intro n ns ihn ihns h
    simp only [attrs_emptyL, Bool.and_eq_true] at h
    cases hn : remove_empty n with
    | none => simpa [remove_emptyL, hn] using ihns h.2
    | some m => simp [remove_emptyL, hn, attrs_emptyL, ihn h.1 m hn, ihns h.2]

/-- Pass 4 preserves empty attribute mappings. -/
theorem strip_href_attrs_empty :
    (∀ n, attrs_empty n = true → attrs_empty (strip_href n) = true) ∧
    (∀ ns, attrs_emptyL ns = true → attrs_emptyL (strip_hrefL ns) = true) := by
  refine node_mutual_ind _ _ ?_ ?_ ?_ ?_ ?_
  · intro s h; exact h
  · intro s h; exact h
  · intro t a cs ih h
    simp only [attrs_empty, Bool.and_eq_true, List.isEmpty_iff] at h
    cases ha : (t == "a") with
    | false => simp [strip_href, ha, attrs_empty, h.1, ih h.2]
    | true => simp [strip_href, ha, attrs_empty, h.1, ih h.2]
  · intro _; rfl
  · intro n ns ihn ihns h
    simp only [attrs_emptyL, Bool.and_eq_true] at h
    simp [strip_hrefL, attrs_emptyL, ihn h.1, ihns h.2]

/-- Pass 5 preserves empty attribute mappings. -/
theorem remove_comments_attrs_empty :
    (∀ n, attrs_empty n = true → ∀ m, remove_comments n = some m → attrs_empty m = true) ∧
    (∀ ns, attrs_emptyL ns = true → attrs_emptyL (remove_commentsL ns) = true) := by
  refine node_mutual_ind _ _ ?_ ?_ ?_ ?_ ?_
  · intro s h m hm
    simp only [remove_comments, Option.some.injEq] at hm
    rw [← hm]; exact h
  · intro s h m hm; cases hm
  · intro t a cs ih h m hm
    simp only [attrs_empty, Bool.and_eq_true] at h
    simp only [remove_comments, Option.some.injEq] at hm
    rw [← hm]
    simp [attrs_empty, h.1, ih h.2]
  · intro _; rfl
  · intro n ns ihn ihns h
    simp only [attrs_emptyL, Bool.and_eq_true] at h
    cases hn : remove_comments n with
    | none => simpa [remove_commentsL, hn] using ihns h.2
    | some m => simp [remove_commentsL, hn, attrs_emptyL, ihn h.1 m hn, ihns h.2]

/-- Pass 6 preserves empty attribute mappings. -/
theorem unwrap_attrs_empty :
    (∀ n, attrs_empty n = true → attrs_emptyL (unwrap n) = true) ∧
    (∀ ns, attrs_emptyL ns = true → attrs_emptyL (unwrapL ns) = true) := by
  refine node_mutual_ind _ _ ?_ ?_ ?_ ?_ ?_
  · intro s h; simp [unwrap, attrs_emptyL, attrs_empty]
  · intro s h; simp [unwrap, attrs_emptyL, attrs_empty]
  · intro t a cs ih h
    simp only [attrs_empty, Bool.and_eq_true] at h
    by_cases hu : unwrap_test t a cs = true
    · simp [unwrap, hu, ih h.2]
    · simp [unwrap, hu, attrs_emptyL, attrs_empty, h.1, ih h.2]
  · intro h; exact h
  · intro n ns ihn ihns h
    simp only [attrs_emptyL, Bool.and_eq_true] at h
    simp [unwrapL, attrs_emptyL_append, ihn h.1, ihns h.2]

/-- Pass 4 preserves the absence of strip-empty elements (it changes no
text). -/
theorem strip_href_no_empty :
    (∀ n, no_empty n = true → no_empty (strip_href n) = true) ∧
    (∀ ns, no_emptyL ns = true → no_emptyL (strip_hrefL ns) = true) := by
  refine node_mutual_ind _ _ ?_ ?_ ?_ ?_ ?_
  · intro s h; exact h
  · intro s h; exact h
  · intro t a cs ih h
    simp only [no_empty, Bool.and_eq_true, Bool.not_eq_true'] at h
    have htext : strip_empty (strip_href (Node.elem t a cs)) =
        strip_empty (Node.elem t a cs) := by
      simp only [strip_empty]
      rw [(strip_href_text.1 (Node.elem t a cs)).1]
    show no_empty (strip_href (Node.elem t a cs)) = true
    have hform : strip_href (Node.elem t a cs) =
        Node.elem t (if t == "a" then a.filter (fun p => !(p.1 == "href")) else a)
          (strip_hrefL cs) := rfl
    rw [hform] at htext ⊢
    simp only [no_empty, Bool.and_eq_true, Bool.not_eq_true']
    refine ⟨?_, ih h.2⟩
    rw [htext]
    exact h.1
  · intro h; exact h
  · intro n ns ihn ihns h
    simp only [no_emptyL, Bool.and_eq_true] at h
    simp [strip_hrefL, no_emptyL, ihn h.1, ihns h.2]

/-- Pass 5 preserves the absence of strip-empty elements. -/
theorem remove_comments_no_empty :
    (∀ n, no_empty n = true → ∀ m, remove_comments n = some m → no_empty m = true) ∧
    (∀ ns, no_emptyL ns = true → no_emptyL (remove_commentsL ns) = true) := by
  refine node_mutual_ind _ _ ?_ ?_ ?_ ?_ ?_
  · intro s h m hm
    simp only [remove_comments, Option.some.injEq] at hm
    rw [← hm]; exact h
  · intro s h m hm; cases hm
  · intro t a cs ih h m hm
    simp only [no_empty, Bool.and_eq_true, Bool.not_eq_true'] at h
    simp only [remove_comments, Option.some.injEq] at hm
    rw [← hm]
    have htext : strip_empty (.elem t a (remove_commentsL cs)) =
        strip_empty (.elem t a cs) := by
      simp [strip_empty, getText, (remove_comments_text.2 cs).1]
    simp only [no_empty, Bool.and_eq_true, Bool.not_eq_true']
    exact ⟨htext ▸ h.1, ih h.2⟩
  · intro _; rfl
  · intro n ns ihn ihns h
    simp only [no_emptyL, Bool.and_eq_true] at h
    cases hn : remove_comments n with
    | none => simpa [remove_commentsL, hn] using ihns h.2
    | some m => simp [remove_commentsL, hn, no_emptyL, ihn h.1 m hn, ihns h.2]

/-- Pass 6 preserves the absence of strip-empty elements. -/
theorem unwrap_no_empty :
    (∀ n, no_empty n = true → no_emptyL (unwrap n) = true) ∧
    (∀ ns, no_emptyL ns = true → no_emptyL (unwrapL ns) = true) := by
  refine node_mutual_ind _ _ ?_ ?_ ?_ ?_ ?_
  · intro s h; simp [unwrap, no_emptyL, no_empty]
  · intro s h; simp [unwrap, no_emptyL, no_empty]
  · intro t a cs ih h
    simp only [no_empty, Bool.and_eq_true, Bool.not_eq_true'] at h
    by_cases hu : unwrap_test t a cs = true
    · simp [unwrap, hu, ih h.2]
    · have htext : strip_empty (.elem t a (unwrapL cs)) =
          strip_empty (.elem t a cs) := by
        simp [strip_empty, getText, unwrap_getText.2]
      simp only [unwrap, hu, Bool.false_eq_true, if_false, no_emptyL, no_empty,
        Bool.and_eq_true, Bool.not_eq_true']
      exact ⟨⟨htext ▸ h.1, ih h.2⟩, trivial⟩
  · intro h; exact h
  · intro n ns ihn ihns h
    simp only [no_emptyL, Bool.and_eq_true] at h
    simp [unwrapL, no_emptyL_append, ihn h.1, ihns h.2]

/-- Pass 5 preserves the absence of anchor `href` attributes. -/
theorem remove_comments_no_href :
    (∀ n, no_href n = true → ∀ m, remove_comments n = some m → no_href m = true) ∧
    (∀ ns, no_hrefL ns = true → no_hrefL (remove_commentsL ns) = true) := by
  refine node_mutual_ind _ _ ?_ ?_ ?_ ?_ ?_
  · intro s h m hm
    simp only [remove_comments, Option.some.injEq] at hm
    rw [← hm]; exact h
  · intro s h m hm; cases hm
  · intro t a cs ih h m hm
    simp only [no_href, Bool.and_eq_true] at h
    simp only [remove_comments, Option.some.injEq] at hm
    rw [← hm]
    simp only [no_href, Bool.and_eq_true]
    exact ⟨h.1, ih h.2⟩
  · intro _; rfl
  · intro n ns ihn ihns h
    simp only [no_hrefL, Bool.and_eq_true] at h
    cases hn : remove_comments n with
    | none => simpa [remove_commentsL, hn] using ihns h.2
    | some m => simp [remove_commentsL, hn, no_hrefL, ihn h.1 m hn, ihns h.2]

/-- Pass 6 preserves the absence of anchor `href` attributes. -/
theorem unwrap_no_href :
    (∀ n, no_href n = true → no_hrefL (unwrap n) = true) ∧
    (∀ ns, no_hrefL ns = true → no_hrefL (unwrapL ns) = true) := by
  refine node_mutual_ind _ _ ?_ ?_ ?_ ?_ ?_
  · intro s h; simp [unwrap, no_hrefL, no_href]
  · intro s h; simp [unwrap, no_hrefL, no_href]
  · intro t a cs ih h
    simp only [no_href, Bool.and_eq_true] at h
    by_cases hu : unwrap_test t a cs = true
    · simp [unwrap, hu, ih h.2]
    · simp only [unwrap, hu, Bool.false_eq_true, if_false, no_hrefL, no_href,
        Bool.and_eq_true]
      exact ⟨⟨h.1, ih h.2⟩, trivial⟩
  · intro h; exact h
  · intro n ns ihn ihns h
    simp only [no_hrefL, Bool.and_eq_true] at h
    simp [unwrapL, no_hrefL_append, ihn h.1, ihns h.2]

/-- Pass 6 preserves comment-freeness. -/
theorem unwrap_comment_free :
    (∀ n, comment_free n = true → comment_freeL (unwrap n) = true) ∧
    (∀ ns, comment_freeL ns = true → comment_freeL (unwrapL ns) = true) := by
  refine node_mutual_ind _ _ ?_ ?_ ?_ ?_ ?_
  · intro s h; simp [unwrap, comment_freeL, comment_free]
  · intro s h; cases h
  · intro t a cs ih h
    simp only [comment_free] at h
    by_cases hu : unwrap_test t a cs = true
    · simp [unwrap, hu, ih h]
    · simp [unwrap, hu, comment_freeL, comment_free, ih h]
  · intro h; exact h
  · intro n ns ihn ihns h
    simp only [comment_freeL, Bool.and_eq_true] at h
    simp [unwrapL, comment_freeL_append, ihn h.1, ihns h.2]

theorem elem_children_append (xs ys : List Node) :
    elem_children (xs ++ ys) = elem_children xs ++ elem_children ys := by
  simp [elem_children]

theorem elem_children_cons (n : Node) (ns : List Node) :
    elem_children (n :: ns) = elem_children [n] ++ elem_children ns := by
  have : n :: ns = [n] ++ ns := rfl
  rw [this, elem_children_append]

/-- Pass 6 preserves the number of element members of a node list: an
unwrapped wrapper is replaced by exactly one element (its single element
child, recursively). -/
theorem unwrap_elem_count :
    (∀ n, (elem_children (unwrap n)).length = (elem_children [n]).length) ∧
    (∀ ns, (elem_children (unwrapL ns)).length = (elem_children ns).length) := by
  refine node_mutual_ind _ _ ?_ ?_ ?_ ?_ ?_
  · intro s; rfl
  · intro s; rfl
  · intro t a cs ih
    by_cases hu : unwrap_test t a cs = true
    · have hlen : (elem_children cs).length = 1 := by
        have h1 := (Bool.and_eq_true _ _ |>.mp hu).1
        simpa using h1
      rw [show unwrap (Node.elem t a cs) = unwrapL cs by simp [unwrap, hu]]
      rw [ih, hlen]
      rfl
    · simp [unwrap, hu, elem_children, isElem]
  · rfl
  · intro n ns ihn ihns
    show (elem_children (unwrap n ++ unwrapL ns)).length = _
    rw [elem_children_append, List.length_append, ihn, ihns]
    conv_rhs => rw [elem_children_cons]
    rw [List.length_append]

/-- Pass 6 preserves the `concat_text`-normalised text of the element members
of a node list. -/
theorem unwrap_child_text :
    (∀ n, concat_text (getTextL (elem_children (unwrap n))) =
      concat_text (getTextL (elem_children [n]))) ∧
    (∀ ns, concat_text (getTextL (elem_children (unwrapL ns))) =
      concat_text (getTextL (elem_children ns))) := by
  refine node_mutual_ind _ _ ?_ ?_ ?_ ?_ ?_
  · intro s; rfl
  · intro s; rfl
  · intro t a cs ih
    by_cases hu : unwrap_test t a cs = true
    · have h2 := (Bool.and_eq_true _ _ |>.mp hu).2
      have h2eq : concat_text (getTextL (elem_children cs)) =
          concat_text (getText (.elem t a cs)) := eq_of_beq h2
      simp only [unwrap, hu, if_true, ih, h2eq]
      simp [elem_children, isElem, getTextL]
    · simp only [unwrap, hu, Bool.false_eq_true, if_false]
      simp only [elem_children, isElem, List.filter_cons, List.filter_nil]
      simp [getTextL, getText, unwrap_getText.2]
  · rfl
  · intro n ns ihn ihns
    show concat_text (getTextL (elem_children (unwrap n ++ unwrapL ns))) = _
    rw [elem_children_append, getTextL_append, concat_text_append, ihn, ihns]
    conv_rhs => rw [elem_children_cons]
    rw [getTextL_append, concat_text_append]

/-- Pass 6 reaches its fixpoint in one sweep: no element of its output
satisfies the unwrap condition, because unwrapping changes neither any
element's `get_text` nor its number of element children. -/
theorem unwrap_no_unwrap :
    (∀ n, no_unwrapL (unwrap n) = true) ∧
    (∀ ns, no_unwrapL (unwrapL ns) = true) := by
  refine node_mutual_ind _ _ ?_ ?_ ?_ ?_ ?_
  · intro s; rfl
  · intro s; rfl
  · intro t a cs ih
    by_cases hu : unwrap_test t a cs = true
    · simpa [unwrap, hu] using ih
    · have htest : unwrap_test t a (unwrapL cs) = unwrap_test t a cs := by
        simp only [unwrap_test, getText]
        rw [unwrap_elem_count.2, unwrap_child_text.2, unwrap_getText.2]
      simp [unwrap, hu, no_unwrapL, no_unwrap, htest, ih]
  · rfl
  · intro n ns ihn ihns
    simp [unwrapL, no_unwrapL_append, ihn, ihns]

/-- After a full run of the tree passes, each pass's own postcondition holds
of the output: no scripts or styles, empty attributes (default mode), no
strip-empty element, no anchor `href`, no comments, and nothing unwrappable. -/
theorem simplify_passes_good (k : Bool) (ns : List Node) :
    script_freeL (simplify_passes k ns) = true ∧
    (k = false → attrs_emptyL (simplify_passes k ns) = true) ∧
    no_emptyL (simplify_passes k ns) = true ∧
    no_hrefL (simplify_passes k ns) = true ∧
    comment_freeL (simplify_passes k ns) = true ∧
    no_unwrapL (simplify_passes k ns) = true := by
  cases k with
  | true =>
      show script_freeL (unwrapL (remove_commentsL (strip_hrefL (remove_emptyL
        (strip_scriptsL ns))))) = true ∧ _
      have h1 : script_freeL (strip_scriptsL ns) = true := strip_scripts_script_free.2 ns
      have h3sf := remove_empty_script_free.2 _ h1
      have h3ne := remove_empty_fixpoint.2 (strip_scriptsL ns)
      have h4sf := strip_href_script_free.2 _ h3sf
      have h4ne := strip_href_no_empty.2 _ h3ne
      have h4nh := strip_href_no_href.2 (remove_emptyL (strip_scriptsL ns))
      have h5sf := remove_comments_script_free.2 _ h4sf
      have h5ne := remove_comments_no_empty.2 _ h4ne
      have h5nh := remove_comments_no_href.2 _ h4nh
      have h5cf := remove_comments_comment_free.2 (strip_hrefL (remove_emptyL
        (strip_scriptsL ns)))
      exact ⟨unwrap_script_free.2 _ h5sf, fun h => Bool.noConfusion h,
        unwrap_no_empty.2 _ h5ne, unwrap_no_href.2 _ h5nh,
        unwrap_comment_free.2 _ h5cf, unwrap_no_unwrap.2 _⟩
  | false =>
      show script_freeL (unwrapL (remove_commentsL (strip_hrefL (remove_emptyL
        (clear_attrsL (strip_scriptsL ns)))))) = true ∧ _
      have h1 : script_freeL (strip_scriptsL ns) = true := strip_scripts_script_free.2 ns
      have h2sf := clear_attrs_script_free.2 _ h1
      have h2ae := clear_attrs_attrs_empty.2 (strip_scriptsL ns)
      have h3sf := remove_empty_script_free.2 _ h2sf
      have h3ae := remove_empty_attrs_empty.2 _ h2ae
      have h3ne := remove_empty_fixpoint.2 (clear_attrsL (strip_scriptsL ns))
      have h4sf := strip_href_script_free.2 _ h3sf
      have h4ae := strip_href_attrs_empty.2 _ h3ae
      have h4ne := strip_href_no_empty.2 _ h3ne
      have h4nh := strip_href_no_href.2 (remove_emptyL (clear_attrsL
        (strip_scriptsL ns)))
      have h5sf := remove_comments_script_free.2 _ h4sf
      have h5ae := remove_comments_attrs_empty.2 _ h4ae
      have h5ne := remove_comments_no_empty.2 _ h4ne
      have h5nh := remove_comments_no_href.2 _ h4nh
      have h5cf := remove_comments_comment_free.2 (strip_hrefL (remove_emptyL
        (clear_attrsL (strip_scriptsL ns))))
      exact ⟨unwrap_script_free.2 _ h5sf, fun _ => unwrap_attrs_empty.2 _ h5ae,
        unwrap_no_empty.2 _ h5ne, unwrap_no_href.2 _ h5nh,
        unwrap_comment_free.2 _ h5cf, unwrap_no_unwrap.2 _⟩

/-- C8: the empty-element removal runs to a fixpoint — the simplifier's output
contains no element whose visible text strips to nothing — and the concrete
document `p` containing only a `br` is removed entirely. -/
theorem simplify_removes_empty_elements :
    (∀ (k : Bool) (ns : List Node), no_emptyL (simplify_passes k ns) = true) ∧
    simplify_passes false [Node.elem "p" [] [Node.elem "br" [] []]] = [] := by
  refine ⟨fun k ns => (simplify_passes_good k ns).2.2.1, ?_⟩
  rfl
